import Mathlib

/-!
Verification of the Uniswap V3 swap decoder (`uniswap_v3_decoder.py`).

The development shallowly embeds the pure core of the decoder:

* addresses are `String`s, kept in their EIP-55 checksummed canonical form;
  the external library function `to_checksum_address` is modelled as the
  identity on this canonical domain (EIP-55 normalization is a bijection
  between raw hex addresses and their checksummed rendering);
* byte strings are `List Nat` with entries `< 256`;
* machine integers of the chain (int256 amounts) are unbounded `Int`s,
  produced by an explicit two's-complement decoding of 32-byte words;
* the RPC oracle resolving a pool's `token0()`/`token1()` is passed as a
  function argument (the Python code memoizes it, which is semantically
  transparent for a pure lookup).
-/

/-! ## Decimal digit strings (used by the formatter `to_hr`) -/

/-- Character for one decimal digit value (`0 ↦ '0'`, ..., `9 ↦ '9'`). -/
def digitChar (n : Nat) : Char := Char.ofNat (48 + n)

/-- Little-endian base-10 digits of `n`, computed with explicit fuel so that
the definition reduces in the kernel. `toDigitsLE fuel n = Nat.digits 10 n`
whenever `n ≤ fuel`. -/
def toDigitsLE (fuel n : Nat) : List Nat :=
  match fuel with
  | 0 => []
  | fuel + 1 => if n = 0 then [] else n % 10 :: toDigitsLE fuel (n / 10)

/-- Little-endian base-10 digits of `n` (empty for `0`). -/
def natDigits (n : Nat) : List Nat := toDigitsLE n n

/-- Big-endian decimal digit characters of `n` (empty for `0`). -/
def natChars (n : Nat) : List Char := ((natDigits n).map digitChar).reverse

/-- Big-endian decimal rendering of `n` (`"0"` for zero), as a char list. -/
def natStr (n : Nat) : List Char := if n = 0 then ['0'] else natChars n

theorem toDigitsLE_eq_digits : ∀ fuel n : Nat, n ≤ fuel →
    toDigitsLE fuel n = Nat.digits 10 n := by
  intro fuel
  induction fuel with
  | zero =>
      intro n hn
      have : n = 0 := Nat.le_zero.mp hn
      subst this
      simp [toDigitsLE]
  | succ f ih =>
      intro n hn
      by_cases h0 : n = 0
      · subst h0; simp [toDigitsLE]
      · have hpos : 0 < n := Nat.pos_of_ne_zero h0
        have hdiv : n / 10 ≤ f := by
          have h1 : n / 10 < n := Nat.div_lt_self hpos (by norm_num)
          omega
        rw [toDigitsLE, if_neg h0, ih _ hdiv, Nat.digits_def' (by norm_num : (1:Nat) < 10) hpos]

theorem natDigits_eq : ∀ n : Nat, natDigits n = Nat.digits 10 n := by
  intro n; exact toDigitsLE_eq_digits n n le_rfl

/-! ## The data model: hops and intents

Mirrors the Python dataclasses `Hop` and `Intent`. -/

/-- One atomic pool swap reconstructed from one `Swap` log
(Python dataclass `Hop`). -/
structure Hop where
  logIndex : Nat
  pool : String
  tokenIn : String
  tokenOut : String
  amountInInt : Int
  amountOutInt : Int
deriving DecidableEq

instance : Inhabited Hop := ⟨⟨0, "", "", "", 0, 0⟩⟩

/-- A swap declaration extracted from calldata (Python dataclass `Intent`). -/
structure Intent where
  idx : Nat
  callType : String
  tokenIn : Option String
  tokenOut : Option String
  recipient : Option String
  pathTokens : Option (List String)
deriving DecidableEq

/-! ## Candidate enumerator (`build_candidates`, `seq_tokens`) -/

/-- Bound on candidate chain length (`max_len = 8` at every call site). -/
def MAX_CHAIN : Nat := 8

/-- Greedy extension step of `build_candidates`'s inner `while` loop:
starting after the hop `last`, keep appending the next hop of `rest` while
it chains (`last.tokenOut == next.tokenIn`) and the remaining capacity `k`
(`max_len` minus the current chain length) is positive. -/
def extendChain (last : Hop) (k : Nat) (rest : List Hop) : List Hop :=
  match rest with
  | [] => []
  | x :: xs =>
      if 0 < k ∧ last.tokenOut = x.tokenIn then x :: extendChain x (k - 1) xs
      else []

/-- All non-empty prefixes of `c`, shortest first
(Python `for L in range(1, len(chain)+1): seqs.append(chain[:L])`). -/
def takePrefixes (c : List Hop) : List (List Hop) :=
  (List.range c.length).map (fun L => c.take (L + 1))

/-- `build_candidates(hops, max_len)`: for every starting hop, greedily chain
consecutive hops while `tokenOut` matches the next `tokenIn`, and emit every
non-empty prefix of each such chain. -/
def build_candidates (hops : List Hop) (maxLen : Nat) : List (List Hop) :=
  match hops with
  | [] => []
  | h :: t => takePrefixes (h :: extendChain h (maxLen - 1) t) ++ build_candidates t maxLen

/-- The maximal greedy chain starting at index `i` of the hop list: the hop
at `i` followed by the greedy forward extension bounded by `MAX_CHAIN`. -/
def maximal_chain (hops : List Hop) (i : Nat) : List Hop :=
  match hops.drop i with
  | [] => []
  | h :: t => h :: extendChain h (MAX_CHAIN - 1) t

/-- Token sequence of a candidate (Python `seq_tokens`): first hop's
`tokenIn` followed by every hop's `tokenOut`. -/
def seq_tokens (seq : List Hop) : List String :=
  match seq with
  | [] => []
  | h :: _ => h.tokenIn :: seq.map Hop.tokenOut

/-! ### Chain invariant helpers -/

/-- `chainFrom prev l`: every hop of `l` chains onto its predecessor,
starting from `prev`. -/
def chainFrom (prev : Hop) : List Hop → Prop
  | [] => True
  | x :: xs => x.tokenIn = prev.tokenOut ∧ chainFrom x xs

/-- Chain invariant of a candidate sequence. -/
def chainOk : List Hop → Prop
  | [] => True
  | x :: xs => chainFrom x xs

theorem extendChain_length (last : Hop) (k : Nat) (rest : List Hop) :
    (extendChain last k rest).length ≤ k := by
  induction rest generalizing last k with
  | nil => simp [extendChain]
  | cons x xs ih =>
      by_cases h : 0 < k ∧ last.tokenOut = x.tokenIn
      · have := ih x (k - 1)
        simp only [extendChain, if_pos h, List.length_cons]
        omega
      · simp [extendChain, if_neg h]

theorem extendChain_chainFrom (last : Hop) (k : Nat) (rest : List Hop) :
    chainFrom last (extendChain last k rest) := by
  induction rest generalizing last k with
  | nil => simp [extendChain, chainFrom]
  | cons x xs ih =>
      by_cases h : 0 < k ∧ last.tokenOut = x.tokenIn
      · rw [extendChain, if_pos h]
        exact ⟨h.2.symm, ih x (k - 1)⟩
      · rw [extendChain, if_neg h]
        trivial

theorem chainFrom_take (prev : Hop) (l : List Hop) (m : Nat)
    (h : chainFrom prev l) : chainFrom prev (l.take m) := by
  induction l generalizing prev m with
  | nil => simp [chainFrom]
  | cons x xs ih =>
      cases m with
      | zero => simp [chainFrom]
      | succ m =>
          obtain ⟨h1, h2⟩ := h
          exact ⟨h1, ih x m h2⟩

theorem chainOk_take (l : List Hop) (m : Nat) (h : chainOk l) :
    chainOk (l.take m) := by
  cases l with
  | nil => simp [chainOk]
  | cons x xs =>
      cases m with
      | zero => simp [chainOk]
      | succ m => exact chainFrom_take x xs m h

theorem chainFrom_get (prev : Hop) (l : List Hop) (h : chainFrom prev l) :
    ∀ i (hi : i + 1 < (prev :: l).length),
      ((prev :: l).get ⟨i + 1, hi⟩).tokenIn
        = ((prev :: l).get ⟨i, Nat.lt_of_succ_lt hi⟩).tokenOut := by
  induction l generalizing prev with
  | nil => intro i hi; simp at hi
  | cons x xs ih =>
      intro i hi
      obtain ⟨h1, h2⟩ := h
      cases i with
      | zero => simpa using h1
      | succ j =>
          have := ih x h2 j (by simpa using hi)
          simpa using this

theorem chainOk_get (l : List Hop) (h : chainOk l) :
    ∀ i (hi : i + 1 < l.length),
      (l.get ⟨i + 1, hi⟩).tokenIn = (l.get ⟨i, Nat.lt_of_succ_lt hi⟩).tokenOut := by
  cases l with
  | nil => intro i hi; simp at hi
  | cons x xs =>
      intro i hi
      exact chainFrom_get x xs h i hi

/-! ### Membership facts about `build_candidates` -/

theorem mem_takePrefixes (c seq : List Hop) (h : seq ∈ takePrefixes c) :
    ∃ L, L < c.length ∧ seq = c.take (L + 1) := by
  unfold takePrefixes at h
  obtain ⟨L, hL, rfl⟩ := List.mem_map.mp h
  exact ⟨L, List.mem_range.mp hL, rfl⟩

theorem take_mem_takePrefixes (c : List Hop) (L : Nat) (h1 : 1 ≤ L)
    (h2 : L ≤ c.length) : c.take L ∈ takePrefixes c := by
  unfold takePrefixes
  refine List.mem_map.mpr ⟨L - 1, List.mem_range.mpr (by omega), ?_⟩
  congr 1
  omega

theorem build_candidates_mem (hops : List Hop) (maxLen : Nat) (hml : 1 ≤ maxLen)
    (seq : List Hop) (h : seq ∈ build_candidates hops maxLen) :
    seq ≠ [] ∧ seq.length ≤ maxLen ∧ chainOk seq := by
  induction hops with
  | nil => simp [build_candidates] at h
  | cons x t ih =>
      rw [build_candidates] at h
      rcases List.mem_append.mp h with hmem | hmem
      · obtain ⟨L, hL, rfl⟩ := mem_takePrefixes _ _ hmem
        have hext := extendChain_length x (maxLen - 1) t
        simp only [List.length_cons] at hL
        have hlen : ((x :: extendChain x (maxLen - 1) t).take (L + 1)).length = L + 1 := by
          rw [List.length_take, List.length_cons]
          omega
        refine ⟨?_, ?_, ?_⟩
        · intro hcon
          rw [hcon] at hlen
          simp at hlen
        · rw [hlen]
          omega
        · refine chainOk_take _ _ ?_
          show chainFrom x (extendChain x (maxLen - 1) t)
          exact extendChain_chainFrom x (maxLen - 1) t
      · exact ih hmem

theorem maximal_chain_prefix_mem (hops : List Hop) (i L : Nat)
    (hi : i < hops.length) (h1 : 1 ≤ L) (h2 : L ≤ (maximal_chain hops i).length) :
    (maximal_chain hops i).take L ∈ build_candidates hops MAX_CHAIN := by
  induction hops generalizing i with
  | nil => simp at hi
  | cons x t ih =>
      cases i with
      | zero =>
          rw [build_candidates]
          refine List.mem_append.mpr (Or.inl ?_)
          have hmc : maximal_chain (x :: t) 0 = x :: extendChain x (MAX_CHAIN - 1) t := by
            simp [maximal_chain]
          rw [hmc]
          rw [hmc] at h2
          exact take_mem_takePrefixes _ L h1 h2
      | succ j =>
          rw [build_candidates]
          refine List.mem_append.mpr (Or.inr ?_)
          have hmc : maximal_chain (x :: t) (j + 1) = maximal_chain t j := by
            simp [maximal_chain]
          rw [hmc]
          rw [hmc] at h2
          exact ih j (by simpa using hi) h2

/-! ## Scorer (`score`) -/

/-- `score(seq, intent)` from the source: rank a candidate sequence against
an intent, returning the lexicographic pair `(score, tie_break_amountIn)`.
Python truthiness of `Optional[str]` fields (`None` and `""` are falsy) and
of `Optional[list]` fields (`None` and `[]` are falsy) is made explicit. -/
def score (seq : List Hop) (intent : Option Intent) : Int × Int :=
  match seq with
  | [] => (-10000, 0)
  | h0 :: _ =>
      let amt_in := h0.amountInInt
      let tokens := seq_tokens seq
      let in_tok := tokens.headD ""
      let out_tok := tokens.getLastD ""
      match intent with
      | none => (0, amt_in)
      | some it =>
          if it.tokenIn = none ∧ it.tokenOut = none ∧ it.pathTokens.getD [] = [] then
            (0, amt_in)
          else
            let sc1 : Int :=
              match it.tokenIn with
              | some s => if s ≠ "" ∧ in_tok = s then 10 else 0
              | none => 0
            let sc2 : Int :=
              match it.tokenOut with
              | some s => if s ≠ "" ∧ out_tok = s then 10 else 0
              | none => 0
            let sc3 : Int :=
              match it.pathTokens with
              | some pt =>
                  if pt ≠ [] ∧ 2 ≤ pt.length then
                    (if tokens = pt then 100
                     else if tokens = pt.reverse then 80 else 0)
                    + (if seq.length = pt.length - 1 then 15 else -5)
                  else 0
              | none => 0
            (sc1 + sc2 + sc3, amt_in)

/-- Scoring formula as the specification words it: base `0`, `+10` for a
tokenIn match, `+10` for a tokenOut match, and for an intent path of at
least two tokens `+100` on exact path match else `+80` on reversed match,
plus `+15` when the hop count equals `len(path) - 1`, else `-5`; second
component always the first hop's `amountInInt`. -/
def score_spec (seq : List Hop) (intent : Option Intent) : Int × Int :=
  match seq with
  | [] => (-10000, 0)
  | h0 :: _ =>
      let firstIn := h0.tokenIn
      let lastOut := (seq.getLastD default).tokenOut
      match intent with
      | none => (0, h0.amountInInt)
      | some it =>
          if it.tokenIn = none ∧ it.tokenOut = none ∧ it.pathTokens.getD [] = [] then
            (0, h0.amountInInt)
          else
            let base : Int :=
              (if it.tokenIn = some firstIn then 10 else 0)
              + (if it.tokenOut = some lastOut then 10 else 0)
            let pathScore : Int :=
              match it.pathTokens with
              | some pt =>
                  if 2 ≤ pt.length then
                    (if seq_tokens seq = pt then 100
                     else if seq_tokens seq = pt.reverse then 80 else 0)
                    + (if seq.length = pt.length - 1 then 15 else -5)
                  else 0
              | none => 0
            (base + pathScore, h0.amountInInt)

theorem seq_tokens_headD (h0 : Hop) (rest : List Hop) :
    (seq_tokens (h0 :: rest)).headD "" = h0.tokenIn := by
  simp [seq_tokens]

theorem map_tokenOut_getLastD (rest : List Hop) (h0 : Hop) :
    (rest.map Hop.tokenOut).getLastD h0.tokenOut = (rest.getLastD h0).tokenOut := by
  induction rest generalizing h0 with
  | nil => rfl
  | cons r rs ih =>
      rw [List.map_cons, List.getLastD_cons, List.getLastD_cons]
      exact ih r

theorem seq_tokens_getLastD (h0 : Hop) (rest : List Hop) :
    (seq_tokens (h0 :: rest)).getLastD "" = ((h0 :: rest).getLastD default).tokenOut := by
  rw [seq_tokens, List.getLastD_cons, List.map_cons, List.getLastD_cons,
    List.getLastD_cons]
  exact map_tokenOut_getLastD rest h0

/-! ## Claim theorems: C3, C4, C1 -/

/-- Sample hops used by concrete witnesses. -/
def hopA : Hop := ⟨0, "P0", "A", "B", 5, 6⟩

/-- Second sample hop, chaining onto `hopA`. -/
def hopB : Hop := ⟨1, "P1", "B", "C", 6, 7⟩

/-- C3: every candidate sequence produced by `build_candidates` with the
bound `MAX_CHAIN = 8` is a non-empty list of at most 8 hops satisfying the
chain invariant `hops[i].tokenIn = hops[i-1].tokenOut` for every `i > 0`. -/
theorem c3_candidate_invariant (hops seq : List Hop)
    (h : seq ∈ build_candidates hops MAX_CHAIN) :
    seq ≠ [] ∧ seq.length ≤ MAX_CHAIN ∧
      ∀ i (hi : i + 1 < seq.length),
        (seq.get ⟨i + 1, hi⟩).tokenIn = (seq.get ⟨i, Nat.lt_of_succ_lt hi⟩).tokenOut := by
  obtain ⟨h1, h2, h3⟩ :=
    build_candidates_mem hops MAX_CHAIN (by norm_num [MAX_CHAIN]) seq h
  exact ⟨h1, h2, chainOk_get seq h3⟩

/-- Witness for C3 at a concrete two-hop candidate. -/
theorem c3_candidate_invariant_witness :
    [hopA, hopB] ∈ build_candidates [hopA, hopB] MAX_CHAIN ∧
      ([hopA, hopB] ≠ [] ∧ [hopA, hopB].length ≤ MAX_CHAIN ∧
        ∀ i (hi : i + 1 < [hopA, hopB].length),
          ([hopA, hopB].get ⟨i + 1, hi⟩).tokenIn
            = ([hopA, hopB].get ⟨i, Nat.lt_of_succ_lt hi⟩).tokenOut) :=
  ⟨by decide, c3_candidate_invariant [hopA, hopB] [hopA, hopB] (by decide)⟩

/-- C4: candidate enumeration is complete: for each starting index `i`, the
maximal greedy chain (extend forward while the next hop's `tokenIn` equals
the current last `tokenOut`, length below 8) has each of its non-empty
prefixes in the output of `build_candidates`. -/
theorem c4_enumeration_complete (hops : List Hop) (i L : Nat)
    (hi : i < hops.length) (h1 : 1 ≤ L) (h2 : L ≤ (maximal_chain hops i).length) :
    (maximal_chain hops i).take L ∈ build_candidates hops MAX_CHAIN :=
  maximal_chain_prefix_mem hops i L hi h1 h2

/-- Witness for C4: the full length-2 greedy chain starting at index 0 of a
two-hop list is enumerated. -/
theorem c4_enumeration_complete_witness :
    (0 < [hopA, hopB].length ∧ 1 ≤ 2 ∧ 2 ≤ (maximal_chain [hopA, hopB] 0).length) ∧
      (maximal_chain [hopA, hopB] 0).take 2 ∈ build_candidates [hopA, hopB] MAX_CHAIN :=
  ⟨⟨by decide, by decide, by decide⟩,
    c4_enumeration_complete [hopA, hopB] 0 2 (by decide) (by decide) (by decide)⟩

/-- C1: for every non-empty candidate and every intent whose declared token
fields are either absent or non-empty address strings, `score` computes
exactly the specification's lexicographic formula `score_spec`. -/
theorem c1_score_formula (seq : List Hop) (intent : Option Intent)
    (hne : seq ≠ [])
    (hwf : ∀ it, intent = some it → it.tokenIn ≠ some "" ∧ it.tokenOut ≠ some "") :
    score seq intent = score_spec seq intent := by
  cases seq with
  | nil => cases hne rfl
  | cons h0 rest =>
      cases intent with
      | none => rfl
      | some it =>
          obtain ⟨hin, hout⟩ := hwf it rfl
          rw [score, score_spec]
          by_cases hnull : it.tokenIn = none ∧ it.tokenOut = none ∧ it.pathTokens.getD [] = []
          · rw [if_pos hnull, if_pos hnull]
          · rw [if_neg hnull, if_neg hnull]
            refine Prod.ext ?_ rfl
            have e1 :
                (match it.tokenIn with
                  | some s => if s ≠ "" ∧ (seq_tokens (h0 :: rest)).headD "" = s then (10 : Int) else 0
                  | none => 0)
                = (if it.tokenIn = some h0.tokenIn then (10 : Int) else 0) := by
              cases hti : it.tokenIn with
              | none => simp
              | some s =>
                  have hs : s ≠ "" := by
                    intro hcon
                    exact hin (by rw [hti, hcon])
                  dsimp only
                  rw [seq_tokens_headD]
                  by_cases heq : h0.tokenIn = s
                  · subst heq
                    simp [hs]
                  · rw [if_neg (fun hc => heq hc.2),
                      if_neg (fun hc => heq (Option.some_inj.mp hc).symm)]
            have e2 :
                (match it.tokenOut with
                  | some s => if s ≠ "" ∧ (seq_tokens (h0 :: rest)).getLastD "" = s then (10 : Int) else 0
                  | none => 0)
                = (if it.tokenOut = some (((h0 :: rest).getLastD default).tokenOut) then (10 : Int) else 0) := by
              cases hto : it.tokenOut with
              | none => simp
              | some s =>
                  have hs : s ≠ "" := by
                    intro hcon
                    exact hout (by rw [hto, hcon])
                  dsimp only
                  rw [seq_tokens_getLastD]
                  by_cases heq : ((h0 :: rest).getLastD default).tokenOut = s
                  · rw [if_pos ⟨hs, heq⟩, if_pos (by rw [heq])]
                  · rw [if_neg (fun hc => heq hc.2),
                      if_neg (fun hc => heq (Option.some_inj.mp hc).symm)]
            have e3 :
                (match it.pathTokens with
                  | some pt =>
                      if pt ≠ [] ∧ 2 ≤ pt.length then
                        ((if seq_tokens (h0 :: rest) = pt then (100 : Int)
                          else if seq_tokens (h0 :: rest) = pt.reverse then 80 else 0)
                          + (if (h0 :: rest).length = pt.length - 1 then 15 else -5))
                      else 0
                  | none => 0)
                = (match it.pathTokens with
                  | some pt =>
                      if 2 ≤ pt.length then
                        ((if seq_tokens (h0 :: rest) = pt then (100 : Int)
                          else if seq_tokens (h0 :: rest) = pt.reverse then 80 else 0)
                          + (if (h0 :: rest).length = pt.length - 1 then 15 else -5))
                      else 0
                  | none => 0) := by
              cases it.pathTokens with
              | none => rfl
              | some pt =>
                  dsimp only
                  by_cases hlen : 2 ≤ pt.length
                  · have hne2 : pt ≠ [] := by
                      intro hcon
                      rw [hcon] at hlen
                      simp at hlen
                    rw [if_pos ⟨hne2, hlen⟩, if_pos hlen]
                  · rw [if_neg (fun hc => hlen hc.2), if_neg hlen]
            simp only [e1, e2, e3]

/-- Sample intent used by the C1 witness. -/
def intentW : Intent := ⟨0, "exactInput", some "A", some "C", some "R", some ["A", "B", "C"]⟩

/-- Witness for C1 at a concrete candidate and intent. -/
theorem c1_score_formula_witness :
    (([hopA, hopB] : List Hop) ≠ [] ∧
      (∀ it, (some intentW : Option Intent) = some it →
        it.tokenIn ≠ some "" ∧ it.tokenOut ≠ some "")) ∧
    score [hopA, hopB] (some intentW) = score_spec [hopA, hopB] (some intentW) :=
  ⟨⟨by decide, by intro it h; cases h; exact ⟨by decide, by decide⟩⟩,
    c1_score_formula [hopA, hopB] (some intentW) (by decide)
      (by intro it h; cases h; exact ⟨by decide, by decide⟩)⟩

/-! ## Selection loop (`decode_uniswap_v3_swap`, lines 549-569) -/

/-- Initial `best_sc` sentinel of the selection loop. -/
def SENTINEL : Int × Int := (-10000, -1)

/-- Python tuple comparison `a < b` on `(int, int)`: lexicographic. -/
def tupLt (a b : Int × Int) : Bool :=
  decide (a.1 < b.1) || (decide (a.1 = b.1) && decide (a.2 < b.2))

/-- One update step of the selection loop: replace the running best when the
pair scores strictly higher (Python `if sc > best_sc`). -/
def upd_best (acc : Option (List Hop) × (Int × Int)) (seq : List Hop)
    (intent : Option Intent) : Option (List Hop) × (Int × Int) :=
  let sc := score seq intent
  if tupLt acc.2 sc then (some seq, sc) else acc

/-- The selection loop: with intents present, maximize over the product
intents × candidates; otherwise over candidates against the null intent.
The `best_intent` bookkeeping (used only for recipient inference) is not
tracked. -/
def select_best (candidates : List (List Hop)) (intents : List Intent) :
    Option (List Hop) × (Int × Int) :=
  if intents ≠ [] then
    intents.foldl
      (fun acc it => candidates.foldl (fun a seq => upd_best a seq (some it)) acc)
      (none, SENTINEL)
  else
    candidates.foldl (fun a seq => upd_best a seq none) (none, SENTINEL)

/-- Python `if not best:` — the selection failed when no candidate was
picked, or (vacuously) an empty list was. -/
def selection_failed (best : Option (List Hop)) : Bool :=
  match best with
  | none => true
  | some s => s.isEmpty

theorem score_fst_lb (seq : List Hop) (intent : Option Intent) (hne : seq ≠ []) :
    -5 ≤ (score seq intent).1 := by
  cases seq with
  | nil => cases hne rfl
  | cons h0 rest =>
      cases intent with
      | none => norm_num [score]
      | some it =>
          rw [score]
          by_cases hnull : it.tokenIn = none ∧ it.tokenOut = none ∧ it.pathTokens.getD [] = []
          · rw [if_pos hnull]
            norm_num
          · rw [if_neg hnull]
            have b1 : (0 : Int) ≤
                (match it.tokenIn with
                  | some s => if s ≠ "" ∧ (seq_tokens (h0 :: rest)).headD "" = s then (10 : Int) else 0
                  | none => 0) := by
              cases it.tokenIn with
              | none => norm_num
              | some s =>
                  dsimp only
                  split_ifs <;> norm_num
            have b2 : (0 : Int) ≤
                (match it.tokenOut with
                  | some s => if s ≠ "" ∧ (seq_tokens (h0 :: rest)).getLastD "" = s then (10 : Int) else 0
                  | none => 0) := by
              cases it.tokenOut with
              | none => norm_num
              | some s =>
                  dsimp only
                  split_ifs <;> norm_num
            have b3 : (-5 : Int) ≤
                (match it.pathTokens with
                  | some pt =>
                      if pt ≠ [] ∧ 2 ≤ pt.length then
                        ((if seq_tokens (h0 :: rest) = pt then (100 : Int)
                          else if seq_tokens (h0 :: rest) = pt.reverse then 80 else 0)
                          + (if (h0 :: rest).length = pt.length - 1 then 15 else -5))
                      else 0
                  | none => 0) := by
              cases it.pathTokens with
              | none => norm_num
              | some pt =>
                  dsimp only
                  split_ifs <;> norm_num
            dsimp only
            omega

theorem score_gt_sentinel (seq : List Hop) (intent : Option Intent) (hne : seq ≠ []) :
    tupLt SENTINEL (score seq intent) = true := by
  have hlb := score_fst_lb seq intent hne
  simp only [tupLt, SENTINEL, Bool.or_eq_true, decide_eq_true_eq]
  left
  omega

/-- The running accumulator of the selection loop holds a non-empty pick. -/
def good_acc (acc : Option (List Hop) × (Int × Int)) : Prop :=
  ∃ s, acc.1 = some s ∧ s ≠ []

theorem upd_best_good (acc : Option (List Hop) × (Int × Int)) (seq : List Hop)
    (intent : Option Intent) (hseq : seq ≠ []) (hg : good_acc acc) :
    good_acc (upd_best acc seq intent) := by
  unfold upd_best
  by_cases h : tupLt acc.2 (score seq intent) = true
  · rw [if_pos h]
    exact ⟨seq, rfl, hseq⟩
  · rw [if_neg h]
    exact hg

theorem upd_best_start (seq : List Hop) (intent : Option Intent) (hseq : seq ≠ []) :
    good_acc (upd_best (none, SENTINEL) seq intent) := by
  unfold upd_best
  rw [if_pos (score_gt_sentinel seq intent hseq)]
  exact ⟨seq, rfl, hseq⟩

theorem foldl_upd_good (cands : List (List Hop)) (intent : Option Intent)
    (acc : Option (List Hop) × (Int × Int))
    (hc : ∀ s ∈ cands, s ≠ [])
    (h : good_acc acc ∨ (acc = (none, SENTINEL) ∧ cands ≠ [])) :
    good_acc (cands.foldl (fun a seq => upd_best a seq intent) acc) := by
  induction cands generalizing acc with
  | nil =>
      rcases h with h | ⟨_, hcon⟩
      · exact h
      · cases hcon rfl
  | cons c cs ih =>
      have hcne : c ≠ [] := hc c (by simp)
      have hcs : ∀ s ∈ cs, s ≠ [] := fun s hs => hc s (by simp [hs])
      rcases h with hg | ⟨rfl, _⟩
      · exact ih (upd_best acc c intent) hcs (Or.inl (upd_best_good acc c intent hcne hg))
      · exact ih _ hcs (Or.inl (upd_best_start c intent hcne))

theorem foldl_outer_good (its : List Intent) (cands : List (List Hop))
    (acc : Option (List Hop) × (Int × Int))
    (hc : ∀ s ∈ cands, s ≠ []) (hcne : cands ≠ [])
    (h : good_acc acc ∨ acc = (none, SENTINEL)) (hits : its ≠ [] ∨ good_acc acc) :
    good_acc (its.foldl
      (fun acc it => cands.foldl (fun a seq => upd_best a seq (some it)) acc) acc) := by
  induction its generalizing acc with
  | nil =>
      rcases hits with hcon | hg
      · cases hcon rfl
      · exact hg
  | cons i is ih =>
      have hstep : good_acc (cands.foldl (fun a seq => upd_best a seq (some i)) acc) := by
        rcases h with hg | rfl
        · exact foldl_upd_good cands (some i) acc hc (Or.inl hg)
        · exact foldl_upd_good cands (some i) _ hc (Or.inr ⟨rfl, hcne⟩)
      exact ih _ (Or.inl hstep) (Or.inr hstep)

theorem build_candidates_ne_nil (hops : List Hop) (maxLen : Nat) (h : hops ≠ []) :
    build_candidates hops maxLen ≠ [] := by
  cases hops with
  | nil => cases h rfl
  | cons x t =>
      rw [build_candidates]
      intro hcon
      have : takePrefixes (x :: extendChain x (maxLen - 1) t) = [] :=
        (List.append_eq_nil.mp hcon).1
      unfold takePrefixes at this
      simp at this

theorem select_best_good (cands : List (List Hop)) (intents : List Intent)
    (hc : ∀ s ∈ cands, s ≠ []) (hcne : cands ≠ []) :
    good_acc (select_best cands intents) := by
  unfold select_best
  by_cases hits : intents ≠ []
  · rw [if_pos hits]
    exact foldl_outer_good intents cands (none, SENTINEL) hc hcne (Or.inr rfl) (Or.inl hits)
  · rw [if_neg hits]
    exact foldl_upd_good cands none (none, SENTINEL) hc (Or.inr ⟨rfl, hcne⟩)

/-- C10: whenever the hop list is non-empty, selection always succeeds:
`build_candidates` returns at least one candidate, every non-empty
candidate out-scores the initial sentinel `(-10000, -1)` under any intent,
and the `Unselectable` branch (`if not best`) is unreachable. -/
theorem c10_selection_total (hops : List Hop) (intents : List Intent) (h : hops ≠ []) :
    build_candidates hops MAX_CHAIN ≠ [] ∧
    (∀ seq intent, seq ≠ [] → tupLt SENTINEL (score seq intent) = true) ∧
    selection_failed (select_best (build_candidates hops MAX_CHAIN) intents).1 = false := by
  refine ⟨build_candidates_ne_nil hops MAX_CHAIN h, score_gt_sentinel, ?_⟩
  have hc : ∀ s ∈ build_candidates hops MAX_CHAIN, s ≠ [] := fun s hs =>
    (build_candidates_mem hops MAX_CHAIN (by norm_num [MAX_CHAIN]) s hs).1
  obtain ⟨s, hs1, hs2⟩ :=
    select_best_good (build_candidates hops MAX_CHAIN) intents hc
      (build_candidates_ne_nil hops MAX_CHAIN h)
  rw [hs1]
  simp only [selection_failed]
  simpa using hs2

/-- Witness for C10 on a concrete one-hop list with no intents. -/
theorem c10_selection_total_witness :
    ([hopA] : List Hop) ≠ [] ∧
      selection_failed (select_best (build_candidates [hopA] MAX_CHAIN) []).1 = false :=
  ⟨by decide, (c10_selection_total [hopA] [] (by decide)).2.2⟩

/-! ## Recipient inference (`infer_recipient`) -/

/-- Known router addresses (EIP-55 checksummed), as listed in the source. -/
def ROUTERS : List String :=
  ["0xE592427A0AEce92De3Edee1F18E0157C05861564",
   "0x68b3465833fb72A70ecDF485E0e4C7bD8665Fc45",
   "0xEf1c6E67703c7BD7107eed8303Fbe6EC2554BF6B",
   "0x3fC91A3afd70395Cd496C647d5a6CC9D4B2b7FAD"]

/-- `to_checksum_address`, modelled as the identity on the canonical
(already checksummed) address domain: EIP-55 normalization is a bijection
between hex addresses read case-insensitively and their checksummed
renderings, and the embedding works with the canonical form throughout. -/
def to_checksum_address (a : String) : String := a

/-- A flattened decoded call, to the extent recipient inference inspects
it: `sweepToken(token, amountMin, recipient)`,
`unwrapWETH9(amountMin, recipient)`, or any other decoded call. -/
inductive DecodedCall where
  | sweepToken (token : String) (amountMin : Nat) (rec : String)
  | unwrapWETH9 (amountMin : Nat) (rec : String)
  | other (name : String)
deriving DecidableEq

/-- Python `to_checksum_address(token_out) if token_out else None`
(`None` and `""` are falsy). -/
def norm_opt_addr (a : Option String) : Option String :=
  match a with
  | none => none
  | some s => if s = "" then none else some (to_checksum_address s)

/-- Loop body of `infer_recipient`: a matching `sweepToken` (token equal to
the output token, or output token unknown) or any `unwrapWETH9` overrides
the running final recipient. -/
def infer_step (token_out : Option String) (final : String) (c : DecodedCall) : String :=
  match c with
  | .sweepToken token _ rec =>
      if token_out = none ∨ some (to_checksum_address token) = token_out then
        to_checksum_address rec
      else final
  | .unwrapWETH9 _ rec => to_checksum_address rec
  | .other _ => final

/-- `infer_recipient(calls, swap_recipient, token_out)`: `None` recipients
stay `None`; a declared recipient outside the router set is final;
otherwise payout-helper calls are scanned in order, last write winning. -/
def infer_recipient (calls : List DecodedCall) (swap_recipient : Option String)
    (token_out : Option String) : Option String :=
  match swap_recipient with
  | none => none
  | some r0 =>
      if r0 = "" then none
      else if to_checksum_address r0 ∉ ROUTERS then some (to_checksum_address r0)
      else some (calls.foldl (infer_step (norm_opt_addr token_out)) (to_checksum_address r0))

/-- C5: a declared recipient that is a valid (non-empty) address outside
the router set is returned as-is by recipient resolution, whatever
`sweepToken` / `unwrapWETH9` calls appear in the flattened call list. -/
theorem c5_nonrouter_recipient_final (calls : List DecodedCall) (rec : String)
    (token_out : Option String) (hne : rec ≠ "")
    (hrt : to_checksum_address rec ∉ ROUTERS) :
    infer_recipient calls (some rec) token_out = some (to_checksum_address rec) := by
  show (if rec = "" then none
    else if to_checksum_address rec ∉ ROUTERS then some (to_checksum_address rec)
    else some (calls.foldl (infer_step (norm_opt_addr token_out)) (to_checksum_address rec)))
    = some (to_checksum_address rec)
  rw [if_neg hne, if_pos hrt]

/-- Witness for C5 with both payout helpers present in the call list. -/
theorem c5_nonrouter_recipient_final_witness :
    (("0xUser" : String) ≠ "" ∧ to_checksum_address "0xUser" ∉ ROUTERS) ∧
      infer_recipient
        [DecodedCall.sweepToken "T" 0 "0xSomebodyElse",
         DecodedCall.unwrapWETH9 0 "0xThirdParty"]
        (some "0xUser") (some "T")
        = some (to_checksum_address "0xUser") :=
  ⟨⟨by decide, by decide⟩,
    c5_nonrouter_recipient_final
      [DecodedCall.sweepToken "T" 0 "0xSomebodyElse",
       DecodedCall.unwrapWETH9 0 "0xThirdParty"]
      "0xUser" (some "T") (by decide) (by decide)⟩

/-! ## Input validation (`main`, lines 655-660) -/

/-- The check `main` actually performs on `tx_hash` before decoding:
`tx_hash.startswith("0x") and len(tx_hash) == 66`. Input strings are
modelled by their character sequences. -/
def valid_tx_hash (s : List Char) : Bool :=
  decide (s.take 2 = ['0', 'x']) && s.length == 66

/-- Modelled from the spec: `tx_hash` must match `0x[0-9a-fA-F]{64}`. -/
def tx_hash_matches (s : List Char) : Bool :=
  decide (s.take 2 = ['0', 'x']) && s.length == 66 &&
    (s.drop 2).all fun c =>
      c.isDigit || ('a' ≤ c && c ≤ 'f') || ('A' ≤ c && c ≤ 'F')

/-- A 66-character string with the `0x` prefix whose tail is not
hexadecimal. -/
def bad_tx_hash : List Char := '0' :: 'x' :: List.replicate 64 'g'

/-- C9 (code bug): the decoder's input validation accepts `bad_tx_hash`
although it does not match `0x[0-9a-fA-F]{64}`, contradicting the spec and
the code's own error message ("expect 0x + 64 hex chars"). -/
theorem c9_validation_accepts_nonhex :
    valid_tx_hash bad_tx_hash = true ∧ tx_hash_matches bad_tx_hash = false := by
  constructor
  · decide
  · decide

/-! ## Log extractor (`extract_hops`) -/

/-- `topics[0]` of a Uniswap V3 pool `Swap` event, lowercased and without
the `0x` prefix:
`keccak256("Swap(address,address,int256,int256,uint160,uint128,int24)")`,
modelled by its concrete 32-byte hex value. -/
def SWAP_TOPIC0_NOX_LOWER : String :=
  "c42079f94a6350d7e6235f29174924f928cc2ac818eb64fed8004e115fbcca67"

/-- One receipt log entry, holding the fields the extractor reads; the
`logIndex` is the parsed numeric value of the RPC hex field, and `data` the
raw event payload bytes. -/
structure RLog where
  topics : List (List Char)
  address : String
  logIndex : Nat
  data : List Nat
deriving DecidableEq

/-- Python `s0x`: drop a leading `"0x"`. -/
def s0x (h : List Char) : List Char :=
  if h.take 2 = ['0', 'x'] then h.drop 2 else h

/-- Big-endian byte-string value. -/
def word256 (bs : List Nat) : Nat := bs.foldl (fun a b => a * 256 + b) 0

/-- Two's-complement reading of a 32-byte big-endian word as `int256`. -/
def int256OfWord (w : Nat) : Int :=
  if w < 2 ^ 255 then (w : Int) else (w : Int) - 2 ^ 256

/-- ABI decoding of Swap event `data` as
`(int256 a0, int256 a1, uint160, uint128, int24)`: five 32-byte words, of
which only the two `int256` deltas are used; anything but exactly 160 bytes
fails to decode. -/
def decodeSwapData (data : List Nat) : Option (Int × Int) :=
  if data.length = 160 then
    some (int256OfWord (word256 (data.take 32)),
      int256OfWord (word256 ((data.drop 32).take 32)))
  else none

/-- Processing of one receipt log by `extract_hops`: a hop is produced only
for a log carrying the V3 `Swap` topic whose data decodes and whose two
deltas have opposite strict signs. `tokfn` is the RPC oracle resolving the
pool's `(token0, token1)`. -/
def hop_of_log (tokfn : String → String × String) (lg : RLog) : Option Hop :=
  match lg.topics with
  | [] => none
  | t0 :: _ =>
      if (s0x t0).map Char.toLower = SWAP_TOPIC0_NOX_LOWER.data then
        match decodeSwapData lg.data with
        | none => none
        | some (a0, a1) =>
            if 0 < a0 ∧ a1 < 0 then
              some ⟨lg.logIndex, to_checksum_address lg.address,
                (tokfn (to_checksum_address lg.address)).1,
                (tokfn (to_checksum_address lg.address)).2, a0, -a1⟩
            else if 0 < a1 ∧ a0 < 0 then
              some ⟨lg.logIndex, to_checksum_address lg.address,
                (tokfn (to_checksum_address lg.address)).2,
                (tokfn (to_checksum_address lg.address)).1, a1, -a0⟩
            else none
      else none

/-- `extract_hops`: scan the receipt logs for V3 `Swap` events, decode each
into a `Hop`, and return the hops sorted ascending by `logIndex` (a stable
sort, like Python's `list.sort`). -/
def extract_hops (tokfn : String → String × String) (logs : List RLog) : List Hop :=
  (logs.filterMap (hop_of_log tokfn)).mergeSort (fun a b => a.logIndex ≤ b.logIndex)

theorem hop_of_log_props (tokfn : String → String × String) (lg : RLog) (h : Hop)
    (hh : hop_of_log tokfn lg = some h) :
    0 < h.amountInInt ∧ 0 < h.amountOutInt ∧
      ∃ a0 a1, decodeSwapData lg.data = some (a0, a1) ∧
        Xor' (0 < a0 ∧ a1 < 0) (0 < a1 ∧ a0 < 0) := by
  obtain ⟨topics, address, logIdx, data⟩ := lg
  cases topics with
  | nil => simp [hop_of_log] at hh
  | cons t0 rest =>
      unfold hop_of_log at hh
      dsimp only at hh ⊢
      by_cases htop : (s0x t0).map Char.toLower = SWAP_TOPIC0_NOX_LOWER.data
      · rw [if_pos htop] at hh
        rcases hdec : decodeSwapData data with _ | ⟨a0, a1⟩
        · rw [hdec] at hh
          exact absurd hh (by simp)
        · rw [hdec] at hh
          dsimp only at hh
          by_cases h1 : 0 < a0 ∧ a1 < 0
          · rw [if_pos h1] at hh
            cases hh
            refine ⟨h1.1, by show (0 : Int) < -a1; omega, a0, a1, rfl, Or.inl ⟨h1, ?_⟩⟩
            intro hcon
            omega
          · rw [if_neg h1] at hh
            by_cases h2 : 0 < a1 ∧ a0 < 0
            · rw [if_pos h2] at hh
              cases hh
              exact ⟨h2.1, by show (0 : Int) < -a0; omega, a0, a1, rfl, Or.inr ⟨h2, h1⟩⟩
            · rw [if_neg h2] at hh
              exact absurd hh (by simp)
      · rw [if_neg htop] at hh
        exact absurd hh (by simp)

theorem hop_of_log_skip (tokfn : String → String × String) (lg : RLog)
    (a0 a1 : Int) (hdec : decodeSwapData lg.data = some (a0, a1))
    (h1 : ¬(0 < a0 ∧ a1 < 0)) (h2 : ¬(0 < a1 ∧ a0 < 0)) :
    hop_of_log tokfn lg = none := by
  obtain ⟨topics, address, logIdx, data⟩ := lg
  cases topics with
  | nil => rfl
  | cons t0 rest =>
      unfold hop_of_log
      dsimp only
      dsimp only at hdec
      by_cases htop : (s0x t0).map Char.toLower = SWAP_TOPIC0_NOX_LOWER.data
      · rw [if_pos htop, hdec]
        dsimp only
        rw [if_neg h1, if_neg h2]
      · rw [if_neg htop]

/-- C2: every hop produced by the log extractor has strictly positive
`amountInInt` and `amountOutInt` and comes from a log whose decoded deltas
`(a0, a1)` satisfy exactly one of the two valid sign configurations
(`a0 > 0 ∧ a1 < 0`, or `a1 > 0 ∧ a0 < 0`); a `Swap` log whose deltas have
the same sign, or where either is zero, produces no hop. -/
theorem c2_hop_sign_invariant (tokfn : String → String × String) (logs : List RLog) :
    (∀ h ∈ extract_hops tokfn logs,
        0 < h.amountInInt ∧ 0 < h.amountOutInt ∧
          ∃ lg ∈ logs, hop_of_log tokfn lg = some h ∧
            ∃ a0 a1, decodeSwapData lg.data = some (a0, a1) ∧
              Xor' (0 < a0 ∧ a1 < 0) (0 < a1 ∧ a0 < 0)) ∧
    (∀ lg ∈ logs, ∀ a0 a1, decodeSwapData lg.data = some (a0, a1) →
        ¬(0 < a0 ∧ a1 < 0) → ¬(0 < a1 ∧ a0 < 0) → hop_of_log tokfn lg = none) := by
  constructor
  · intro h hmem
    have hmem2 : h ∈ logs.filterMap (hop_of_log tokfn) := by
      unfold extract_hops at hmem
      exact List.mem_mergeSort.mp hmem
    obtain ⟨lg, hlg, hsome⟩ := List.mem_filterMap.mp hmem2
    obtain ⟨p1, p2, a0, a1, hdec, hxor⟩ := hop_of_log_props tokfn lg h hsome
    exact ⟨p1, p2, lg, hlg, hsome, a0, a1, hdec, hxor⟩
  · intro lg _ a0 a1 hdec h1 h2
    exact hop_of_log_skip tokfn lg a0 a1 hdec h1 h2

/-- Constant token oracle used by the C2 witness. -/
def tokfnW : String → String × String := fun _ => ("T0", "T1")

/-- Concrete `Swap` log for the C2 witness: `a0 = 1`, `a1 = -1`. -/
def lgW : RLog :=
  ⟨[('0' :: 'x' :: SWAP_TOPIC0_NOX_LOWER.data)], "PoolX", 7,
    List.replicate 31 0 ++ [1] ++ List.replicate 32 255 ++ List.replicate 96 0⟩

/-- The hop `lgW` produces. -/
def hopW : Hop := ⟨7, "PoolX", "T0", "T1", 1, 1⟩

set_option maxRecDepth 8000 in
/-- Witness for C2 on the concrete log `lgW`. -/
theorem c2_hop_sign_invariant_witness :
    hopW ∈ extract_hops tokfnW [lgW] ∧ 0 < hopW.amountInInt ∧ 0 < hopW.amountOutInt := by
  have hfm : [lgW].filterMap (hop_of_log tokfnW) = [hopW] := by decide
  have hmem : hopW ∈ extract_hops tokfnW [lgW] := by
    unfold extract_hops
    rw [hfm]
    simp
  have := (c2_hop_sign_invariant tokfnW [lgW]).1 hopW hmem
  exact ⟨hmem, this.1, this.2.1⟩

/-! ## Path codec (`parse_path`) -/

/-- Hex character for one nibble (lowercase, as Python `bytes.hex()`). -/
def hexDigitChar (n : Nat) : Char :=
  if n < 10 then Char.ofNat (48 + n) else Char.ofNat (87 + n)

/-- Two hex characters of one byte. -/
def byteHexChars (b : Nat) : List Char := [hexDigitChar (b / 16), hexDigitChar (b % 16)]

/-- Python `bytes.hex()`. -/
def hexOfBytes (bs : List Nat) : String := String.mk (bs.flatMap byteHexChars)

/-- Rendering of a 20-byte token slice as the checksummed address string
the code produces (`to_checksum_address("0x" + slice.hex())`). -/
def addrOfBytes (bs : List Nat) : String := to_checksum_address ("0x" ++ hexOfBytes bs)

/-- Fuel-indexed tail loop of `parse_path`: while bytes remain, skip the
3-byte fee and read the next 20-byte token; a truncated tail (fewer than 3,
then fewer than 20 bytes) terminates parsing. Each iteration consumes 23
bytes, so fuel `q.length` always suffices. -/
def parse_path_rest_fuel : Nat → List Nat → List String
  | 0, _ => []
  | fuel + 1, q =>
      if q.length < 3 then []
      else if (q.drop 3).length < 20 then []
      else addrOfBytes ((q.drop 3).take 20)
        :: parse_path_rest_fuel fuel ((q.drop 3).drop 20)

/-- Tail loop of `parse_path`, with the fuel instantiated. -/
def parse_path_rest (q : List Nat) : List String :=
  parse_path_rest_fuel q.length q

theorem parse_path_rest_fuel_congr :
    ∀ fuel1 fuel2 q, q.length ≤ fuel1 → q.length ≤ fuel2 →
      parse_path_rest_fuel fuel1 q = parse_path_rest_fuel fuel2 q := by
  intro fuel1
  induction fuel1 with
  | zero =>
      intro fuel2 q h1 h2
      have hq : q = [] := List.eq_nil_of_length_eq_zero (by omega)
      subst hq
      cases fuel2 with
      | zero => rfl
      | succ f2 => simp [parse_path_rest_fuel]
  | succ f1 ih =>
      intro fuel2 q h1 h2
      cases fuel2 with
      | zero =>
          have hq : q = [] := List.eq_nil_of_length_eq_zero (by omega)
          subst hq
          simp [parse_path_rest_fuel]
      | succ f2 =>
          rw [parse_path_rest_fuel, parse_path_rest_fuel]
          by_cases hc1 : q.length < 3
          · rw [if_pos hc1, if_pos hc1]
          · rw [if_neg hc1, if_neg hc1]
            by_cases hc2 : (q.drop 3).length < 20
            · rw [if_pos hc2, if_pos hc2]
            · rw [if_neg hc2, if_neg hc2]
              congr 1
              have hlen : ((q.drop 3).drop 20).length = q.length - 23 := by
                simp only [List.length_drop]
                omega
              exact ih f2 _ (by omega) (by omega)

theorem parse_path_rest_eq (q : List Nat) :
    parse_path_rest q =
      if q.length < 3 then []
      else if (q.drop 3).length < 20 then []
      else addrOfBytes ((q.drop 3).take 20) :: parse_path_rest ((q.drop 3).drop 20) := by
  have h1 : parse_path_rest_fuel q.length q = parse_path_rest_fuel (q.length + 1) q :=
    parse_path_rest_fuel_congr q.length (q.length + 1) q le_rfl (by omega)
  unfold parse_path_rest
  rw [h1, parse_path_rest_fuel]
  by_cases hc1 : q.length < 3
  · rw [if_pos hc1, if_pos hc1]
  · rw [if_neg hc1, if_neg hc1]
    by_cases hc2 : (q.drop 3).length < 20
    · rw [if_pos hc2, if_pos hc2]
    · rw [if_neg hc2, if_neg hc2]
      congr 1
      exact parse_path_rest_fuel_congr q.length ((q.drop 3).drop 20).length
        ((q.drop 3).drop 20) (by simp only [List.length_drop]; omega) le_rfl

/-- `parse_path`: Uniswap V3 packed path
`token(20) || (fee(3) || token(20))*` to the list of checksummed token
addresses, fee tiers discarded; fewer than 20 bytes yields the empty list. -/
def parse_path (p : List Nat) : List String :=
  if p.length < 20 then []
  else addrOfBytes (p.take 20) :: parse_path_rest (p.drop 20)

/-- Encoder for the round-trip property: interleave fees and the remaining
tokens after the first (`fee(3) || token(20)` groups). -/
def encodePathRest : List (List Nat) → List (List Nat) → List Nat
  | f :: fs, t :: ts => f ++ (t ++ encodePathRest fs ts)
  | _, _ => []

/-- Encoder for the round-trip property: the V3 path layout
`token(20) || (fee(3) || token(20))*`. -/
def encodePath (tokens fees : List (List Nat)) : List Nat :=
  match tokens with
  | [] => []
  | t :: ts => t ++ encodePathRest fees ts

theorem parse_path_rest_encode (fees ts : List (List Nat))
    (hf : ∀ f ∈ fees, f.length = 3) (ht : ∀ t ∈ ts, t.length = 20)
    (hlen : fees.length = ts.length) :
    parse_path_rest (encodePathRest fees ts) = ts.map addrOfBytes := by
  induction fees generalizing ts with
  | nil =>
      cases ts with
      | nil => simp [encodePathRest, parse_path_rest, parse_path_rest_fuel]
      | cons t ts' => simp at hlen
  | cons f fs ih =>
      cases ts with
      | nil => simp at hlen
      | cons t ts' =>
          have hf3 : f.length = 3 := hf f (by simp)
          have ht20 : t.length = 20 := ht t (by simp)
          have hdrop3 : (encodePathRest (f :: fs) (t :: ts')).drop 3
              = t ++ encodePathRest fs ts' := by
            show (f ++ (t ++ encodePathRest fs ts')).drop 3 = t ++ encodePathRest fs ts'
            rw [← hf3, List.drop_left]
          have hlen1 : ¬(encodePathRest (f :: fs) (t :: ts')).length < 3 := by
            show ¬(f ++ (t ++ encodePathRest fs ts')).length < 3
            simp only [List.length_append]
            omega
          have hlen2 : ¬((encodePathRest (f :: fs) (t :: ts')).drop 3).length < 20 := by
            rw [hdrop3]
            simp only [List.length_append]
            omega
          rw [parse_path_rest_eq, if_neg hlen1, if_neg hlen2, hdrop3]
          have htake : (t ++ encodePathRest fs ts').take 20 = t := by
            rw [← ht20, List.take_left]
          have hdrop : (t ++ encodePathRest fs ts').drop 20 = encodePathRest fs ts' := by
            rw [← ht20, List.drop_left]
          rw [htake, hdrop, List.map_cons]
          congr 1
          exact ih ts' (fun x hx => hf x (by simp [hx])) (fun x hx => ht x (by simp [hx]))
            (by simpa using hlen)

/-- C7: the path codec round-trips: parsing the encoding
`token(20) || (fee(3) || token(20))*` of any non-empty list of 20-byte
addresses interleaved with 3-byte fees yields exactly the original address
list (in its checksummed rendering), fee tiers discarded. -/
theorem c7_path_roundtrip (tokens fees : List (List Nat))
    (hne : tokens ≠ [])
    (ht : ∀ t ∈ tokens, t.length = 20)
    (hf : ∀ f ∈ fees, f.length = 3)
    (hlen : fees.length = tokens.length - 1) :
    parse_path (encodePath tokens fees) = tokens.map addrOfBytes := by
  cases tokens with
  | nil => cases hne rfl
  | cons t ts =>
      have ht20 : t.length = 20 := ht t (by simp)
      have hlen1 : ¬(encodePath (t :: ts) fees).length < 20 := by
        show ¬(t ++ encodePathRest fees ts).length < 20
        simp only [List.length_append]
        omega
      unfold parse_path
      rw [if_neg hlen1]
      have htake : (encodePath (t :: ts) fees).take 20 = t := by
        show (t ++ encodePathRest fees ts).take 20 = t
        rw [← ht20, List.take_left]
      have hdrop : (encodePath (t :: ts) fees).drop 20 = encodePathRest fees ts := by
        show (t ++ encodePathRest fees ts).drop 20 = encodePathRest fees ts
        rw [← ht20, List.drop_left]
      rw [htake, hdrop, List.map_cons]
      congr 1
      exact parse_path_rest_encode fees ts hf (fun x hx => ht x (by simp [hx]))
        (by simpa using hlen)

/-- First sample 20-byte token. -/
def tokBytes1 : List Nat := List.replicate 20 17

/-- Second sample 20-byte token. -/
def tokBytes2 : List Nat := List.replicate 20 34

/-- Sample 3-byte fee (`0x0001F4` = 500). -/
def feeBytes : List Nat := [0, 1, 244]

set_option maxRecDepth 4000 in
/-- Witness for C7 on a concrete two-token path. -/
theorem c7_path_roundtrip_witness :
    (([tokBytes1, tokBytes2] : List (List Nat)) ≠ [] ∧
      (∀ t ∈ [tokBytes1, tokBytes2], t.length = 20) ∧
      (∀ f ∈ [feeBytes], f.length = 3) ∧
      [feeBytes].length = [tokBytes1, tokBytes2].length - 1) ∧
    parse_path (encodePath [tokBytes1, tokBytes2] [feeBytes])
      = [tokBytes1, tokBytes2].map addrOfBytes :=
  ⟨⟨by decide, by decide, by decide, by decide⟩,
    c7_path_roundtrip [tokBytes1, tokBytes2] [feeBytes]
      (by decide) (by decide) (by decide) (by decide)⟩

/-! ## Intent builder (`decode_intent`, `decode_universal_router_intents`) -/

/-- A decoded swap-declaration call with the argument fields
`decode_intent` reads (the decode registry guarantees these shapes). -/
inductive SwapCall where
  | exactInputSingle (tokenIn tokenOut : String) (fee : Nat) (recipient : String)
  | exactOutputSingle (tokenIn tokenOut : String) (fee : Nat) (recipient : String)
  | exactInput (path : List Nat) (recipient : String)
  | exactOutput (path : List Nat) (recipient : String)
deriving DecidableEq

/-- `decode_intent(name, args, idx)`: build an `Intent` from one decoded
swap call. Path-based calls keep `pathTokens` (possibly empty) and leave
the token endpoints unset when the path yields no token; `exactOutput`
paths are reversed in meaning. -/
def decode_intent (c : SwapCall) (idx : Nat) : Intent :=
  match c with
  | .exactInputSingle tin tout _ rec =>
      ⟨idx, "exactInputSingle", some (to_checksum_address tin),
        some (to_checksum_address tout), some (to_checksum_address rec), none⟩
  | .exactOutputSingle tin tout _ rec =>
      ⟨idx, "exactOutputSingle", some (to_checksum_address tin),
        some (to_checksum_address tout), some (to_checksum_address rec), none⟩
  | .exactInput path rec =>
      let pt := parse_path path
      ⟨idx, "exactInput", (if pt ≠ [] then pt.head? else none),
        (if pt ≠ [] then pt.getLast? else none),
        some (to_checksum_address rec), some pt⟩
  | .exactOutput path rec =>
      let pt := parse_path path
      ⟨idx, "exactOutput", (if pt ≠ [] then pt.getLast? else none),
        (if pt ≠ [] then pt.head? else none),
        some (to_checksum_address rec), some pt⟩

/-- The ABI-decoded argument tuple of a Universal Router V3 swap
sub-command:
`(address recipient, uint256, uint256, bytes path, bool payerIsUser)`. -/
structure URInput where
  recipient : String
  amountA : Nat
  amountB : Nat
  path : List Nat
  payerIsUser : Bool
deriving DecidableEq

/-- Universal Router command code `V3_SWAP_EXACT_IN`. -/
def UR_V3_SWAP_EXACT_IN : Nat := 0

/-- Universal Router command code `V3_SWAP_EXACT_OUT`. -/
def UR_V3_SWAP_EXACT_OUT : Nat := 1

/-- `decode_universal_router_intents(commands, inputs, base_idx)`: walk the
command bytes paired with input blobs (`none` models an input whose ABI
decode raised, skipped silently); the walk stops when inputs run out. Only
V3 swap commands (lower five bits `0x00` / `0x01`) yield intents, and only
when their path parses to at least one token; `i` is the running command
index. -/
def decode_universal_router_intents :
    List Nat → List (Option URInput) → Nat → Nat → List Intent
  | [], _, _, _ => []
  | _ :: _, [], _, _ => []
  | cmd :: cmds, inp :: inps, base, i =>
      let rest := decode_universal_router_intents cmds inps base (i + 1)
      if cmd &&& 0x1f = UR_V3_SWAP_EXACT_IN then
        match inp with
        | none => rest
        | some u =>
            let pt := parse_path u.path
            if pt ≠ [] then
              ⟨base + i, "urV3SwapExactIn", pt.head?, pt.getLast?,
                some (to_checksum_address u.recipient), some pt⟩ :: rest
            else rest
      else if cmd &&& 0x1f = UR_V3_SWAP_EXACT_OUT then
        match inp with
        | none => rest
        | some u =>
            let pt := parse_path u.path
            if pt ≠ [] then
              ⟨base + i, "urV3SwapExactOut", pt.getLast?, pt.head?,
                some (to_checksum_address u.recipient), some pt⟩ :: rest
            else rest
      else rest

/-- A successfully decoded V3_SWAP_EXACT_IN argument blob whose path bytes
are empty, so no token can be resolved from it. -/
def urInputEmptyPath : URInput := ⟨"0xRecipient", 1, 1, [], true⟩

/-- Counterexample to C8 as stated: this Universal Router V3 swap
sub-command's argument blob decodes successfully, yet no Intent record at
all is emitted, because its path parses to an empty token list and the
code only appends an intent under `if pt:`. -/
theorem c8_counterexample :
    decode_universal_router_intents [0] [some urInputEmptyPath] 0 0 = [] := by
  decide

theorem ur_intents_path_nonempty :
    ∀ (cmds : List Nat) (inps : List (Option URInput)) (base i : Nat),
      ∀ it ∈ decode_universal_router_intents cmds inps base i,
        ∃ pt, it.pathTokens = some pt ∧ pt ≠ [] := by
  intro cmds
  induction cmds with
  | nil =>
      intro inps base i it hmem
      simp [decode_universal_router_intents] at hmem
  | cons cmd cmds ih =>
      intro inps base i it hmem
      cases inps with
      | nil => simp [decode_universal_router_intents] at hmem
      | cons inp inps' =>
          simp only [decode_universal_router_intents] at hmem
          by_cases hin : cmd &&& 0x1f = UR_V3_SWAP_EXACT_IN
          · rw [if_pos hin] at hmem
            cases inp with
            | none => exact ih inps' base (i + 1) it hmem
            | some u =>
                dsimp only at hmem
                by_cases hpt : parse_path u.path ≠ []
                · rw [if_pos hpt] at hmem
                  rcases List.mem_cons.mp hmem with rfl | hmem'
                  · exact ⟨parse_path u.path, rfl, hpt⟩
                  · exact ih inps' base (i + 1) it hmem'
                · rw [if_neg hpt] at hmem
                  exact ih inps' base (i + 1) it hmem
          · rw [if_neg hin] at hmem
            by_cases hout : cmd &&& 0x1f = UR_V3_SWAP_EXACT_OUT
            · rw [if_pos hout] at hmem
              cases inp with
              | none => exact ih inps' base (i + 1) it hmem
              | some u =>
                  dsimp only at hmem
                  by_cases hpt : parse_path u.path ≠ []
                  · rw [if_pos hpt] at hmem
                    rcases List.mem_cons.mp hmem with rfl | hmem'
                    · exact ⟨parse_path u.path, rfl, hpt⟩
                    · exact ih inps' base (i + 1) it hmem'
                  · rw [if_neg hpt] at hmem
                    exact ih inps' base (i + 1) it hmem
            · rw [if_neg hout] at hmem
              exact ih inps' base (i + 1) it hmem

/-- C8 as amended: the four direct swap-declaration calls always emit an
Intent, carrying the declared recipient, even when no tokens can be
resolved; but a Universal Router V3 swap sub-command emits an Intent only
when its path parses to at least one token — every emitted UR intent has a
non-empty `pathTokens`, and a successfully decoded sub-command with an
empty token list is skipped. -/
theorem c8_intent_emission (c : SwapCall) (idx : Nat) :
    (decode_intent c idx).recipient.isSome = true ∧
    (∀ (cmds : List Nat) (inps : List (Option URInput)) (base i : Nat),
      ∀ it ∈ decode_universal_router_intents cmds inps base i,
        ∃ pt, it.pathTokens = some pt ∧ pt ≠ []) := by
  constructor
  · cases c <;> rfl
  · exact ur_intents_path_nonempty

/-- A 20-byte path (one full token), so the UR sub-command emits. -/
def urInputOneToken : URInput := ⟨"0xRecipient", 1, 1, List.replicate 20 9, true⟩

set_option maxRecDepth 4000 in
/-- Witness for C8 (amended): a `exactInput` call with an empty path still
carries its recipient, and a UR sub-command with a one-token path emits an
intent whose `pathTokens` is non-empty. -/
theorem c8_intent_emission_witness :
    (decode_intent (SwapCall.exactInput [] "0xRec") 0).recipient.isSome = true ∧
    (decode_intent (SwapCall.exactInput [] "0xRec") 0).tokenIn = none ∧
    ∃ it ∈ decode_universal_router_intents [0] [some urInputOneToken] 0 0,
      ∃ pt, it.pathTokens = some pt ∧ pt ≠ [] := by
  refine ⟨(c8_intent_emission (SwapCall.exactInput [] "0xRec") 0).1, by decide, ?_⟩
  obtain ⟨it, hit⟩ : ∃ it, it ∈ decode_universal_router_intents [0] [some urInputOneToken] 0 0 := by
    refine ⟨?_, ?_⟩
    · exact ⟨0, "urV3SwapExactIn", (parse_path urInputOneToken.path).head?,
        (parse_path urInputOneToken.path).getLast?,
        some (to_checksum_address urInputOneToken.recipient),
        some (parse_path urInputOneToken.path)⟩
    · decide
  exact ⟨it, hit,
    (c8_intent_emission (SwapCall.exactInput [] "0xRec") 0).2
      [0] [some urInputOneToken] 0 0 it hit⟩

/-! ## Formatter (`to_hr`) and its decimal-string parser -/

/-- Python `str.rstrip` of one character: remove trailing occurrences. -/
def rstripChar (c : Char) (s : List Char) : List Char :=
  (s.reverse.dropWhile (fun d => d = c)).reverse

/-- `to_hr(x, dec)`: render `x / 10^dec` as its exact decimal string, then
strip trailing zeros and a trailing decimal point. The Python code computes
the digit string through `Decimal` arithmetic at 80 digits of precision and
`format(d, "f")`, which is exact for `x < 10^77`; the digit extraction is
embedded directly, and the final strip makes both renderings agree. -/
def to_hr (x dec : Nat) : String :=
  if dec = 0 then String.mk (natStr x)
  else
    String.mk (rstripChar '.' (rstripChar '0'
      (natStr (x / 10 ^ dec) ++ '.'
        :: (List.replicate (dec - (natDigits (x % 10 ^ dec)).length) '0'
            ++ natChars (x % 10 ^ dec)))))

/-- Decimal digit value of a character, if any. -/
def digitVal (c : Char) : Option Nat :=
  if 48 ≤ c.toNat ∧ c.toNat ≤ 57 then some (c.toNat - 48) else none

/-- Big-endian accumulation of decimal digits; fails on a non-digit. -/
def parseDigitsCore : Nat → List Char → Option Nat
  | acc, [] => some acc
  | acc, c :: cs =>
      match digitVal c with
      | some v => parseDigitsCore (acc * 10 + v) cs
      | none => none

/-- Parse a non-empty big-endian decimal digit string. -/
def parseDigits (s : List Char) : Option Nat :=
  if s = [] then none else parseDigitsCore 0 s

/-- Split a character list at the first `'.'`. -/
def splitDot : List Char → List Char × Option (List Char)
  | [] => ([], none)
  | c :: cs =>
      if c = '.' then ([], some cs)
      else ((c :: (splitDot cs).1), (splitDot cs).2)

/-- Parse a decimal string into `(numerator, scale)`, its value being
`numerator / 10 ^ scale`. -/
def parseDec (s : List Char) : Option (Nat × Nat) :=
  match splitDot s with
  | (w, none) => (parseDigits w).map (fun n => (n, 0))
  | (w, some fr) =>
      match parseDigits w, parseDigits fr with
      | some a, some b => some (a * 10 ^ fr.length + b, fr.length)
      | _, _ => none

/-- Big-endian value of a digit-character list. -/
def bigVal (l : List Char) : Nat :=
  l.foldl (fun a c => a * 10 + (digitVal c).getD 0) 0

/-- All characters are decimal digits. -/
def allDigits (l : List Char) : Prop := ∀ c ∈ l, (digitVal c).isSome = true

theorem digitVal_digitChar : ∀ b : Nat, b < 10 → digitVal (digitChar b) = some b := by
  decide

theorem parseDigitsCore_eq_foldl (l : List Char) :
    ∀ acc, allDigits l →
      parseDigitsCore acc l = some (l.foldl (fun a c => a * 10 + (digitVal c).getD 0) acc) := by
  induction l with
  | nil => intro acc _; rfl
  | cons c cs ih =>
      intro acc hall
      have hc : (digitVal c).isSome = true := hall c (by simp)
      obtain ⟨v, hv⟩ := Option.isSome_iff_exists.mp hc
      rw [parseDigitsCore, hv]
      dsimp only
      have := ih (acc * 10 + v) (fun d hd => hall d (by simp [hd]))
      rw [this, List.foldl_cons]
      simp [hv]

theorem parseDigits_eq_bigVal (l : List Char) (hne : l ≠ []) (hall : allDigits l) :
    parseDigits l = some (bigVal l) := by
  unfold parseDigits bigVal
  rw [if_neg hne]
  exact parseDigitsCore_eq_foldl l 0 hall

theorem bigVal_append_one (l : List Char) (c : Char) :
    bigVal (l ++ [c]) = bigVal l * 10 + (digitVal c).getD 0 := by
  unfold bigVal
  rw [List.foldl_append]
  rfl

theorem foldl_digitChars_reverse (ds : List Nat) (hds : ∀ d ∈ ds, d < 10) :
    ∀ acc, ((ds.map digitChar).reverse).foldl (fun a c => a * 10 + (digitVal c).getD 0) acc
      = acc * 10 ^ ds.length + Nat.ofDigits 10 ds := by
  induction ds with
  | nil => intro acc; simp [Nat.ofDigits_nil]
  | cons d ds' ih =>
      intro acc
      have hd : d < 10 := hds d (by simp)
      rw [List.map_cons, List.reverse_cons, List.foldl_append]
      rw [ih (fun e he => hds e (by simp [he])) acc]
      simp only [List.foldl_cons, List.foldl_nil]
      rw [digitVal_digitChar d hd]
      simp only [Option.getD_some]
      rw [Nat.ofDigits_cons, List.length_cons, Nat.pow_succ]
      ring

theorem natDigits_lt (n : Nat) : ∀ d ∈ natDigits n, d < 10 := by
  rw [natDigits_eq]
  exact fun d hd => Nat.digits_lt_base (by norm_num) hd

theorem allDigits_natChars (n : Nat) : allDigits (natChars n) := by
  intro c hc
  unfold natChars at hc
  rw [List.mem_reverse] at hc
  obtain ⟨d, hd, rfl⟩ := List.mem_map.mp hc
  rw [digitVal_digitChar d (natDigits_lt n d hd)]
  rfl

theorem allDigits_natStr (n : Nat) : allDigits (natStr n) := by
  unfold natStr
  by_cases h : n = 0
  · rw [if_pos h]
    intro c hc
    simp only [List.mem_singleton] at hc
    subst hc
    decide
  · rw [if_neg h]
    exact allDigits_natChars n

theorem bigVal_natChars (n : Nat) : bigVal (natChars n) = n := by
  unfold bigVal natChars
  rw [natDigits_eq,
    foldl_digitChars_reverse _ (fun d hd => Nat.digits_lt_base (by norm_num) hd) 0]
  simp [Nat.ofDigits_digits]

theorem natStr_ne_nil (n : Nat) : natStr n ≠ [] := by
  unfold natStr
  by_cases h : n = 0
  · rw [if_pos h]
    simp
  · rw [if_neg h]
    unfold natChars
    simp only [ne_eq, List.reverse_eq_nil_iff, List.map_eq_nil_iff]
    rw [natDigits_eq]
    exact Nat.digits_ne_nil_iff_ne_zero.mpr h

theorem bigVal_natStr (n : Nat) : bigVal (natStr n) = n := by
  unfold natStr
  by_cases h : n = 0
  · rw [if_pos h, h]
    decide
  · rw [if_neg h]
    exact bigVal_natChars n

theorem parseDigits_natStr (n : Nat) : parseDigits (natStr n) = some n := by
  rw [parseDigits_eq_bigVal _ (natStr_ne_nil n) (allDigits_natStr n), bigVal_natStr]

theorem natDigits_length_le (f dec : Nat) (h : f < 10 ^ dec) :
    (natDigits f).length ≤ dec := by
  rw [natDigits_eq]
  by_cases hf : f = 0
  · subst hf
    simp
  · by_contra hcon
    push_neg at hcon
    have h1 : 10 ^ (Nat.digits 10 f).length ≤ 10 * f :=
      Nat.base_pow_length_digits_le 10 f (by norm_num) hf
    have h2 : 10 ^ (dec + 1) ≤ 10 ^ (Nat.digits 10 f).length :=
      Nat.pow_le_pow_right (by norm_num) hcon
    have h3 : 10 ^ (dec + 1) = 10 * 10 ^ dec := by ring
    omega

theorem length_fracChars (dec f : Nat) (h : f < 10 ^ dec) :
    (List.replicate (dec - (natDigits f).length) '0' ++ natChars f).length = dec := by
  have hle := natDigits_length_le f dec h
  simp only [List.length_append, List.length_replicate, natChars, List.length_reverse,
    List.length_map]
  omega

theorem allDigits_fracChars (dec f : Nat) :
    allDigits (List.replicate (dec - (natDigits f).length) '0' ++ natChars f) := by
  intro c hc
  rcases List.mem_append.mp hc with hc | hc
  · have : c = '0' := List.eq_of_mem_replicate hc
    subst this
    decide
  · exact allDigits_natChars f c hc

theorem foldl_zeros (k : Nat) :
    List.foldl (fun a c => a * 10 + (digitVal c).getD 0) 0 (List.replicate k '0') = 0 := by
  induction k with
  | zero => rfl
  | succ m ih =>
      rw [List.replicate_succ, List.foldl_cons]
      simpa using ih

theorem bigVal_fracChars (dec f : Nat) :
    bigVal (List.replicate (dec - (natDigits f).length) '0' ++ natChars f) = f := by
  unfold bigVal
  rw [List.foldl_append, foldl_zeros]
  exact bigVal_natChars f

theorem mem_of_mem_dropWhile (p : Char → Bool) (l : List Char) (c : Char)
    (h : c ∈ l.dropWhile p) : c ∈ l := by
  induction l with
  | nil => simp at h
  | cons a t ih =>
      rw [List.dropWhile_cons] at h
      by_cases hp : p a = true
      · rw [if_pos hp] at h
        exact List.mem_cons.mpr (Or.inr (ih h))
      · rw [if_neg hp] at h
        exact h

theorem head_dropWhile_false (p : Char → Bool) (l : List Char) (x : Char)
    (t : List Char) (h : l.dropWhile p = x :: t) : p x = false := by
  induction l with
  | nil => simp at h
  | cons a s ih =>
      rw [List.dropWhile_cons] at h
      by_cases hp : p a = true
      · rw [if_pos hp] at h
        exact ih h
      · rw [if_neg hp] at h
        cases h
        exact Bool.not_eq_true _ |>.mp hp

theorem bigVal_dropWhile_zero (r : List Char) :
    bigVal ((r.dropWhile (fun d => d = '0')).reverse)
      * 10 ^ (r.length - (r.dropWhile (fun d => d = '0')).length)
    = bigVal r.reverse := by
  induction r with
  | nil => simp [bigVal]
  | cons c cs ih =>
      rw [List.dropWhile_cons]
      by_cases hc : c = '0'
      · rw [if_pos (by simp [hc])]
        rw [List.reverse_cons, bigVal_append_one]
        have hv : (digitVal c).getD 0 = 0 := by
          subst hc
          decide
        rw [hv, Nat.add_zero]
        have hle : (cs.dropWhile (fun d => d = '0')).length ≤ cs.length :=
          (List.dropWhile_suffix _).sublist.length_le
        have hlen : (c :: cs).length - (cs.dropWhile (fun d => d = '0')).length
            = (cs.length - (cs.dropWhile (fun d => d = '0')).length) + 1 := by
          rw [List.length_cons]
          omega
        rw [hlen, Nat.pow_succ, ← Nat.mul_assoc, ih]
      · rw [if_neg (by simp [hc])]
        simp

theorem rstripChar_append_dot (w f : List Char) :
    rstripChar '0' (w ++ '.' :: f) = w ++ '.' :: rstripChar '0' f := by
  unfold rstripChar
  rw [List.reverse_append, List.reverse_cons, List.append_assoc,
    List.dropWhile_append]
  by_cases he : (f.reverse.dropWhile (fun d => d = '0')).isEmpty
  · rw [if_pos he]
    have hf : f.reverse.dropWhile (fun d => d = '0') = [] :=
      List.isEmpty_iff.mp he
    rw [hf]
    rw [show (['.'] ++ w.reverse : List Char) = '.' :: w.reverse from rfl,
      List.dropWhile_cons, if_neg (by decide)]
    simp
  · rw [if_neg he]
    rw [show (['.'] ++ w.reverse : List Char) = '.' :: w.reverse from rfl]
    rw [List.reverse_append, List.reverse_cons, List.reverse_reverse]
    simp

theorem rstripChar_eq_self (c : Char) (l : List Char) (h : l.getLast? ≠ some c) :
    rstripChar c l = l := by
  unfold rstripChar
  cases hr : l.reverse with
  | nil =>
      have : l = [] := by simpa using congrArg List.reverse hr
      rw [List.dropWhile_nil, List.reverse_nil, this]
  | cons x t =>
      have hx : x ≠ c := by
        rw [← List.head?_reverse, hr] at h
        simpa using h
      rw [List.dropWhile_cons, if_neg (by simp [hx]), ← hr, List.reverse_reverse]

theorem rstripChar_append_single (c : Char) (w : List Char)
    (h : w.getLast? ≠ some c) : rstripChar c (w ++ [c]) = w := by
  unfold rstripChar
  rw [List.reverse_append, List.reverse_cons, List.reverse_nil, List.nil_append,
    List.singleton_append, List.dropWhile_cons, if_pos (by simp)]
  have hw : w.reverse.dropWhile (fun d => d = c) = w.reverse := by
    cases hr : w.reverse with
    | nil => rfl
    | cons y t =>
        have hy : y ≠ c := by
          rw [← List.head?_reverse, hr] at h
          simpa using h
        rw [List.dropWhile_cons, if_neg (by simp [hy])]
  rw [hw, List.reverse_reverse]

theorem allDigits_ne_dot (l : List Char) (hall : allDigits l) :
    ∀ c ∈ l, c ≠ '.' := by
  intro c hc hcon
  subst hcon
  have h := hall _ hc
  revert h
  decide

theorem allDigits_not_mem_dot (l : List Char) (hall : allDigits l) :
    '.' ∉ l := fun hmem => allDigits_ne_dot l hall '.' hmem rfl

theorem splitDot_no_dot (w : List Char) (h : '.' ∉ w) : splitDot w = (w, none) := by
  induction w with
  | nil => rfl
  | cons c cs ih =>
      have hc : c ≠ '.' := fun hcon => h (by simp [hcon])
      have hcs : '.' ∉ cs := fun hmem => h (by simp [hmem])
      rw [splitDot, if_neg hc, ih hcs]

theorem splitDot_append (w f : List Char) (h : '.' ∉ w) :
    splitDot (w ++ '.' :: f) = (w, some f) := by
  induction w with
  | nil =>
      rw [List.nil_append, splitDot, if_pos rfl]
  | cons c cs ih =>
      have hc : c ≠ '.' := fun hcon => h (by simp [hcon])
      have hcs : '.' ∉ cs := fun hmem => h (by simp [hmem])
      rw [List.cons_append, splitDot, if_neg hc, ih hcs]

theorem getLast?_mem_of_allDigits (l : List Char) (hall : allDigits l) (c : Char)
    (h : l.getLast? = some c) : (digitVal c).isSome = true := by
  cases l with
  | nil => simp at h
  | cons a t =>
      have hne : (a :: t) ≠ ([] : List Char) := by simp
      rw [List.getLast?_eq_getLast_of_ne_nil hne] at h
      have hmem := List.getLast_mem hne
      have hc := Option.some_inj.mp h
      rw [← hc]
      exact hall _ hmem

theorem allDigits_getLast_ne_dot (l : List Char) (hall : allDigits l) :
    l.getLast? ≠ some '.' := by
  intro hcon
  have h := getLast?_mem_of_allDigits l hall '.' hcon
  revert h
  decide

theorem rstripChar_getLast_ne (c : Char) (l : List Char) :
    (rstripChar c l).getLast? ≠ some c := by
  intro hcon
  unfold rstripChar at hcon
  rw [← List.head?_reverse, List.reverse_reverse] at hcon
  cases hd : l.reverse.dropWhile (fun d => d = c) with
  | nil =>
      rw [hd] at hcon
      simp at hcon
  | cons x t =>
      rw [hd] at hcon
      simp only [List.head?_cons, Option.some_inj] at hcon
      subst hcon
      have hfalse := head_dropWhile_false _ _ _ _ hd
      simp at hfalse

theorem stripParse_core (ip dec : Nat) (F : List Char)
    (fval : Nat) (hFlen : F.length = dec) (hFdig : allDigits F)
    (hFval : bigVal F = fval) :
    ∃ n s, parseDec (rstripChar '.' (rstripChar '0' (natStr ip ++ '.' :: F)))
        = some (n, s) ∧
      n * 10 ^ dec = (10 ^ dec * ip + fval) * 10 ^ s ∧ s ≤ dec ∧
      (rstripChar '.' (rstripChar '0' (natStr ip ++ '.' :: F))).getLast? ≠ some '.' ∧
      ('.' ∈ rstripChar '.' (rstripChar '0' (natStr ip ++ '.' :: F)) →
        (rstripChar '.' (rstripChar '0' (natStr ip ++ '.' :: F))).getLast? ≠ some '0') := by
  rw [rstripChar_append_dot]
  have hF'dig : allDigits (rstripChar '0' F) := by
    intro c hc
    apply hFdig
    unfold rstripChar at hc
    rw [List.mem_reverse] at hc
    exact List.mem_reverse.mp (mem_of_mem_dropWhile _ _ _ hc)
  have hF'len : (rstripChar '0' F).length ≤ dec := by
    unfold rstripChar
    rw [List.length_reverse]
    calc (F.reverse.dropWhile (fun d => d = '0')).length
        ≤ F.reverse.length := (List.dropWhile_suffix _).sublist.length_le
      _ = dec := by rw [List.length_reverse, hFlen]
  have hF'val : bigVal (rstripChar '0' F) * 10 ^ (dec - (rstripChar '0' F).length)
      = fval := by
    have h9 := bigVal_dropWhile_zero F.reverse
    rw [List.reverse_reverse, hFval] at h9
    unfold rstripChar
    rw [List.length_reverse, ← hFlen, ← List.length_reverse F]
    exact h9
  by_cases hFe : rstripChar '0' F = []
  · have hf0 : fval = 0 := by
      rw [hFe] at hF'val
      simpa [bigVal] using hF'val.symm
    rw [hFe]
    rw [show (natStr ip ++ ['.'] : List Char) = natStr ip ++ ['.'] from rfl]
    rw [rstripChar_append_single '.' (natStr ip)
      (allDigits_getLast_ne_dot _ (allDigits_natStr ip))]
    refine ⟨ip, 0, ?_, ?_, Nat.zero_le dec,
      allDigits_getLast_ne_dot _ (allDigits_natStr ip),
      fun hdot => absurd hdot (allDigits_not_mem_dot _ (allDigits_natStr ip))⟩
    · unfold parseDec
      rw [splitDot_no_dot _ (allDigits_not_mem_dot _ (allDigits_natStr ip))]
      dsimp only
      rw [parseDigits_natStr]
      rfl
    · rw [hf0, pow_zero, Nat.add_zero]
      ring
  · obtain ⟨y, t, hyt⟩ := List.exists_cons_of_ne_nil hFe
    have hlast : (natStr ip ++ '.' :: rstripChar '0' F).getLast?
        = (rstripChar '0' F).getLast? := by
      rw [List.getLast?_append_cons, hyt, List.getLast?_cons_cons]
    have hlast_ne_dot : (natStr ip ++ '.' :: rstripChar '0' F).getLast? ≠ some '.' := by
      rw [hlast]
      exact allDigits_getLast_ne_dot _ hF'dig
    rw [rstripChar_eq_self '.' _ hlast_ne_dot]
    refine ⟨ip * 10 ^ (rstripChar '0' F).length + bigVal (rstripChar '0' F),
      (rstripChar '0' F).length, ?_, ?_, hF'len, hlast_ne_dot, ?_⟩
    · unfold parseDec
      rw [splitDot_append _ _ (allDigits_not_mem_dot _ (allDigits_natStr ip))]
      dsimp only
      rw [parseDigits_natStr, parseDigits_eq_bigVal _ hFe hF'dig]
    · have hds : dec - (rstripChar '0' F).length + (rstripChar '0' F).length = dec := by
        omega
      have hsplit : (10 : Nat) ^ dec
          = 10 ^ (dec - (rstripChar '0' F).length) * 10 ^ (rstripChar '0' F).length := by
        rw [← pow_add, hds]
      calc (ip * 10 ^ (rstripChar '0' F).length + bigVal (rstripChar '0' F)) * 10 ^ dec
          = ip * 10 ^ (rstripChar '0' F).length * 10 ^ dec
            + bigVal (rstripChar '0' F)
              * (10 ^ (dec - (rstripChar '0' F).length) * 10 ^ (rstripChar '0' F).length) := by
            rw [← hsplit]
            ring
        _ = ip * 10 ^ (rstripChar '0' F).length * 10 ^ dec
            + fval * 10 ^ (rstripChar '0' F).length := by
            rw [← Nat.mul_assoc, hF'val]
        _ = (10 ^ dec * ip + fval) * 10 ^ (rstripChar '0' F).length := by ring
    · intro _
      rw [hlast]
      exact rstripChar_getLast_ne '0' F

theorem parseDec_to_hr (x dec : Nat) :
    (∃ n s, parseDec (to_hr x dec).data = some (n, s) ∧
      n * 10 ^ dec = x * 10 ^ s ∧ s ≤ dec) ∧
    (to_hr x dec).data.getLast? ≠ some '.' ∧
    ('.' ∈ (to_hr x dec).data → (to_hr x dec).data.getLast? ≠ some '0') := by
  by_cases hdec : dec = 0
  · subst hdec
    have hchars : (to_hr x 0).data = natStr x := by
      unfold to_hr
      rw [if_pos rfl]
    rw [hchars]
    refine ⟨⟨x, 0, ?_, by ring, le_rfl⟩,
      allDigits_getLast_ne_dot _ (allDigits_natStr x),
      fun hdot => absurd hdot (allDigits_not_mem_dot _ (allDigits_natStr x))⟩
    unfold parseDec
    rw [splitDot_no_dot _ (allDigits_not_mem_dot _ (allDigits_natStr x))]
    dsimp only
    rw [parseDigits_natStr]
    rfl
  · have hchars : (to_hr x dec).data
        = rstripChar '.' (rstripChar '0'
          (natStr (x / 10 ^ dec) ++ '.'
            :: (List.replicate (dec - (natDigits (x % 10 ^ dec)).length) '0'
                ++ natChars (x % 10 ^ dec)))) := by
      unfold to_hr
      rw [if_neg hdec]
    have hf : x % 10 ^ dec < 10 ^ dec := Nat.mod_lt x (pow_pos (by norm_num) dec)
    obtain ⟨n, s, hp, hval, hs, hd1, hd2⟩ :=
      stripParse_core (x / 10 ^ dec) dec
        (List.replicate (dec - (natDigits (x % 10 ^ dec)).length) '0'
          ++ natChars (x % 10 ^ dec))
        (x % 10 ^ dec) (length_fracChars dec _ hf) (allDigits_fracChars dec _)
        (bigVal_fracChars dec _)
    rw [hchars]
    rw [Nat.div_add_mod] at hval
    exact ⟨⟨n, s, hp, hval, hs⟩, hd1, hd2⟩

/-- C6: `to_hr(x, d)` returns the exact decimal rendering of `x / 10^d`
with trailing zeros and any trailing decimal point trimmed, and parsing
the returned string back yields a decimal `n / 10^s` exactly equal to
`x / 10^d` (no loss of precision); an exact integer multiple renders as
`"50"` (not `"50.0"`), and an 18-decimal amount renders as
`"146.252839837202059906"`. -/
theorem c6_formatter_roundtrip (x dec : Nat) (_hx : x < 10 ^ 77) :
    (∃ n s, parseDec (to_hr x dec).data = some (n, s) ∧
      n * 10 ^ dec = x * 10 ^ s ∧ s ≤ dec) ∧
    (to_hr x dec).data.getLast? ≠ some '.' ∧
    ('.' ∈ (to_hr x dec).data → (to_hr x dec).data.getLast? ≠ some '0') ∧
    to_hr 50000000 6 = "50" ∧
    to_hr 146252839837202059906 18 = "146.252839837202059906" := by
  obtain ⟨h1, h2, h3⟩ := parseDec_to_hr x dec
  exact ⟨h1, h2, h3, by decide, by decide⟩

/-- Witness for C6 at `x = 232`, `dec = 2` (the `"2.32"` amount of the
spec's first end-to-end scenario). -/
theorem c6_formatter_roundtrip_witness :
    (232 : Nat) < 10 ^ 77 ∧
      ∃ n s, parseDec (to_hr 232 2).data = some (n, s) ∧
        n * 10 ^ 2 = 232 * 10 ^ s ∧ s ≤ 2 :=
  ⟨by norm_num, (c6_formatter_roundtrip 232 2 (by norm_num)).1⟩
